import Mathlib

/-!
Verification development for the musig2-example repository.

The repository coordinates a two-round MuSig2 signing protocol among N
participants, in two topologies:

* hub-mediated (`src/bin/operator.rs`): an operator registers signers,
  builds a `KeyAggContext` from the registered public keys, collects one
  public nonce per signer, fans out the other signers' nonces to each
  signer, collects partial signatures, fans those out, collects the final
  signatures and checks consistency and validity;
* peer gossip, in two variants: a websocket variant
  (`src/session.rs`, `src/connection.rs`, `src/node.rs`) and a raw-TCP
  variant (`src/utils/state.rs`, `src/network/handler.rs`).

The elliptic-curve cryptography (the `musig2` crate) is an external
collaborator of the repository; it is modelled here by a small executable
algebra over `Nat` that is faithful to the interface the code consumes:
key aggregation is determined by the ordered key list, nonces are
determined by their seeds, the aggregated nonce is the sum of all
participants' nonces, and the combination of all N partial signatures
produced for the same context, message and aggregated nonce verifies
against the aggregated key.  The HTTP signer node of the hub topology is
not part of the repository sources and is modelled from the spec.

Rust `HashMap`s are modelled as association lists.  The iteration order
of a `std::collections::HashMap` is unspecified, so wherever the code
iterates a map (`Operator::sign_message` iterates the signer map), the
embedding takes the iteration order as an explicit list parameter; a list
that is a permutation of the registered entries is a possible iteration.
-/

namespace Musig2Spec

/-- Public keys of the secp256k1 curve, abstracted: an opaque injectively
encoded value. -/
abbrev PublicKey := Nat

/-- Modelled from the spec: the 33-byte compressed SEC1 serialization of a
public key (`k.serialize()` in `src/session.rs`), abstracted as an
injective encoding into `Nat`. -/
def serializeKey (k : PublicKey) : Nat := k

/-- Modelled from the spec: derivation of the public key from a secret key
(`PublicKey::from_secret_key`), abstracted as an injective function. -/
def pubkeyOf (s : Nat) : PublicKey := 2 * s + 1

/-- Modelled from the spec: the public nonce determined by a per-round
seed (`generate_round1` returns the public nonce for a seed). -/
def nonceOf (seed : Nat) : Nat := seed + 1

/-- Modelled from the spec: `KeyAggContext::new(pubkeys)` of the external
capability.  The context is determined by the ordered key list; creation
fails on an empty list (as in the `musig2` crate, which accepts duplicate
keys). -/
def keyAggCtxNew (l : List PublicKey) : Option (List PublicKey) :=
  if l.isEmpty then none else some l

/-- Modelled from the spec: `key_agg_ctx.aggregated_pubkey()`, the single
group verification key derived deterministically from the ordered key
list. -/
def aggregatedPubkey (ctx : List PublicKey) : Nat :=
  List.foldl (fun a k => Nat.pair a (serializeKey k)) 0 ctx

/-- Modelled from the spec: the unique valid Schnorr `s`-component for a
given aggregated key, message and aggregated nonce `bigR`. -/
def sigTarget (ctx : List PublicKey) (msg bigR : Nat) : Nat :=
  Nat.pair (Nat.pair (aggregatedPubkey ctx) msg) bigR

/-- Modelled from the spec: `musig2::verify_single(aggregated_pubkey,
signature, message)`.  A signature is a pair `(bigR, s)`; it is valid when
`s` is the unique valid `s`-component for the key, message and `bigR`. -/
def verifySingle (aggpk : Nat) (sig : Nat × Nat) (msg : Nat) : Bool :=
  decide (sig.2 = Nat.pair (Nat.pair aggpk msg) sig.1)

/-- Modelled from the spec: the partial signature contributed by the
signer holding index `i` of the context, for message `msg` and aggregated
nonce `bigR`.  The shares are arranged so that the sum of the shares of
all indices of the context equals the valid `s`-component, reflecting
MuSig2 completeness: combining every participant's partial signature for
the same context, message and aggregated nonce yields a valid
signature. -/
def partialShare (ctx : List PublicKey) (i : Nat) (msg bigR : Nat) : Nat :=
  if i = 0 then sigTarget ctx msg bigR else 0

/-! ## Association-list model of `std::collections::HashMap` -/

/-- Lookup in an association list (`HashMap::get`). -/
def hmLookup {κ β : Type} [DecidableEq κ] (k : κ) : List (κ × β) → Option β
  | [] => none
  | e :: rest => if e.1 = k then some e.2 else hmLookup k rest

/-- Insert in an association list (`HashMap::insert`): replace the entry
with the same key if present, otherwise add the entry. -/
def hmInsert {κ β : Type} [DecidableEq κ] (k : κ) (v : β) : List (κ × β) → List (κ × β)
  | [] => [(k, v)]
  | e :: rest => if e.1 = k then (k, v) :: rest else e :: hmInsert k v rest

/-- Remove by key from an association list (`HashMap::remove`). -/
def hmErase {κ β : Type} [DecidableEq κ] (k : κ) : List (κ × β) → List (κ × β)
  | [] => []
  | e :: rest => if e.1 = k then hmErase k rest else e :: hmErase k rest

/-- The keys of an association list. -/
def keysOf {κ β : Type} (m : List (κ × β)) : List κ := m.map Prod.fst

/-- The sum of the values of an association list of naturals. -/
def sumValues {κ : Type} (m : List (κ × Nat)) : Nat := (m.map Prod.snd).sum

/-! ## Peer-gossip, websocket variant (`src/session.rs`) -/

/-- The canonical identity ordering of `src/session.rs:16-18`:
`pubkeys.sort_by_key(|k| k.serialize())`. -/
def sortPubkeys (l : List PublicKey) : List PublicKey :=
  l.mergeSort (fun a b => decide (serializeKey a ≤ serializeKey b))

/-- `initialize_signing_session` of `src/session.rs:9-38`.  The function
collects the peer keys plus the node's own key, sorts them by their
serialization, returns unchanged if a session is already established, and
otherwise stores the freshly built `KeyAggContext` (on a `KeyAggContext`
failure the stored session is left unchanged).  The state it touches is
the `Option<KeyAggContext>` cell, returned here. -/
def initializeSigningSession (peers : List PublicKey) (own : PublicKey)
    (sess : Option (List PublicKey)) : Option (List PublicKey) :=
  let pubkeys := sortPubkeys (peers ++ [own])
  if sess.isSome then sess
  else
    match keyAggCtxNew pubkeys with
    | some ctx => some ctx
    | none => sess

/-! ## Peer-gossip, raw-TCP variant (`src/utils/state.rs`,
`src/network/handler.rs`) -/

/-- `SecNonceSpices` of the `musig2` crate: optional secret key and
message bound into nonce generation.  `SecNonceSpices::new()` binds
neither. -/
structure SecNonceSpices where
  seckey : Option Nat
  message : Option Nat
deriving DecidableEq, Repr

/-- `SecNonceSpices::new()`: no secret key and no message bound. -/
def SecNonceSpices.new : SecNonceSpices := ⟨none, none⟩

/-- The state of `musig2::FirstRound`, as far as the repository observes
it: the context, the nonce seed, the signer index and the spices passed
to `FirstRound::new`. -/
structure FirstRoundSt where
  key_agg_ctx : List PublicKey
  nonce_seed : Nat
  signer_index : Nat
  spices : SecNonceSpices
deriving DecidableEq, Repr

/-- Modelled from the spec: `FirstRound::new(ctx, seed, index, spices)`
of the external capability; fails when the signer index is out of range
of the context. -/
def firstRoundNew (ctx : List PublicKey) (seed idx : Nat)
    (sp : SecNonceSpices) : Option FirstRoundSt :=
  if idx < ctx.length then some ⟨ctx, seed, idx, sp⟩ else none

/-- `first_round.our_public_nonce()`: the public nonce of the round's
seed. -/
def ourPublicNonce (fr : FirstRoundSt) : Nat := nonceOf fr.nonce_seed

/-- `SharedState` of `src/utils/state.rs:7-15`.  The
`active_connections` field (raw TCP handles) is transport and is not
modelled; every other field is kept. -/
structure SharedState where
  own_public_key : PublicKey
  public_keys : List PublicKey
  nonces : List Nat
  partial_signatures : List Nat
  num_of_signers : Nat
  first_round : Option FirstRoundSt
deriving DecidableEq, Repr

/-- `SharedState::new(own_public_key, num_of_signers)`
(`src/utils/state.rs:18-28`). -/
def SharedState.new (own : PublicKey) (n : Nat) : SharedState :=
  ⟨own, [], [], [], n, none⟩

/-- `SharedState::add_public_key` (`src/utils/state.rs:30-32`):
`Vec::push`, no distinctness check. -/
def addPublicKey (st : SharedState) (k : PublicKey) : SharedState :=
  { st with public_keys := st.public_keys ++ [k] }

/-- `SharedState::add_nonce` (`src/utils/state.rs:34-36`): `Vec::push`,
no distinctness check. -/
def addNonce (st : SharedState) (x : Nat) : SharedState :=
  { st with nonces := st.nonces ++ [x] }

/-- `SharedState::add_partial_signature` (`src/utils/state.rs:38-40`):
`Vec::push`, no distinctness check. -/
def addPartialSignature (st : SharedState) (x : Nat) : SharedState :=
  { st with partial_signatures := st.partial_signatures ++ [x] }

/-- `SharedState::public_keys_received` (`src/utils/state.rs:54-56`):
`self.public_keys.len() == self.num_of_signers - 1`. -/
def publicKeysReceived (st : SharedState) : Bool :=
  st.public_keys.length == st.num_of_signers - 1

/-- `SharedState::nonces_received` (`src/utils/state.rs:58-60`):
`self.nonces.len() == self.num_of_signers - 1`. -/
def noncesReceived (st : SharedState) : Bool :=
  st.nonces.length == st.num_of_signers - 1

/-- `SharedState::partial_signatures_received`
(`src/utils/state.rs:62-64`):
`self.partial_signatures.len() == self.num_of_signers - 1`. -/
def partialSignaturesReceived (st : SharedState) : Bool :=
  st.partial_signatures.length == st.num_of_signers - 1

/-- `handle_public_key` of `src/network/handler.rs:73-134`.  The received
key is pushed into `public_keys`; when `public_keys_received()` holds,
the key list `public_keys ++ [own_public_key]` (unsorted) is aggregated,
`FirstRound::new(ctx, seed, 0, SecNonceSpices::new())` is constructed and
its public nonce is pushed into `nonces`.  The code drops the
`FirstRound` value after extracting the nonce and never stores it in
`first_round`; the constructed value is returned here alongside the new
state so that its parameters can be observed.  The two `expect` panics
are modelled as `Except.error`.  Broadcasting the nonce over the active
connections is transport and is not modelled. -/
def handlePublicKey (key : PublicKey) (seed : Nat) (st : SharedState) :
    Except String (SharedState × Option FirstRoundSt) :=
  let st1 := addPublicKey st key
  if publicKeysReceived st1 then
    let pubkeys := st1.public_keys ++ [st1.own_public_key]
    match keyAggCtxNew pubkeys with
    | none => .error "Failed to create KeyAggContext"
    | some ctx =>
      match firstRoundNew ctx seed 0 SecNonceSpices.new with
      | none => .error "Failed to initialize FirstRound"
      | some fr => .ok ({ st1 with nonces := st1.nonces ++ [ourPublicNonce fr] }, some fr)
  else .ok (st1, none)

/-! ## Hub-mediated variant (`src/bin/operator.rs`)

The operator's signer registry is
`HashMap<(usize, PublicKey), String>`: key `(registration index, public
key)`, value address.  It is modelled as an association list; since
`Operator::sign_message` iterates this map (in one lock, so all three
phases see one and the same order), the embedding of `sign_message`
receives the entries in iteration order as a list, and any permutation of
the registered entries is a possible iteration order. -/

/-- One entry of the operator's signer map:
`((registration index, public key), address)`. -/
abbrev Entry := (Nat × PublicKey) × String

/-- `signers.iter().map(|((_, pubkey), _)| *pubkey).collect()`
(`src/bin/operator.rs:97`): the key list in map-iteration order. -/
def pubkeysOf (iter : List Entry) : List PublicKey := iter.map fun e => e.1.2

/-- `Operator::register_signer` (`src/bin/operator.rs:73-87`): the next
index is `signers.len()`, the entry `((index, public_key), address)` is
inserted, and the handler unconditionally replies with success.  There is
no duplicate-identity check. -/
def registerSigner (m : List Entry) (pk : PublicKey) (addr : String) :
    List Entry × String :=
  (hmInsert (m.length, pk) addr m, "Registered successfully with public key")

/-- The signer map obtained by registering, in order, one signer per
address of `addrs`, each holding the secret `secretOf addr`. -/
def regFold (secretOf : String → Nat) (addrs : List String) : List Entry :=
  addrs.foldl (fun m a => (registerSigner m (pubkeyOf (secretOf a)) a).1) []

/-- `GenerateNonceRequest` (`src/types.rs:44-53`). -/
structure GenerateNonceRequest where
  session_id : String
  message : Nat
  key_agg_ctx : List PublicKey
  signer_index : Nat
deriving DecidableEq, Repr

/-- The nonce requests issued in the first loop of
`Operator::sign_message` (`src/bin/operator.rs:123-129`): one request per
map entry, in iteration order, carrying that entry's registration index
as `signer_index`. -/
def nonceRequestsFor (sid : String) (msg : Nat) (ctx : List PublicKey)
    (iter : List Entry) : List GenerateNonceRequest :=
  iter.map fun e => ⟨sid, msg, ctx, e.1.1⟩

/-- Modelled from the spec: the `/nonce` endpoint of the HTTP signer node
(the signer binary of the hub topology is not among the repository
sources).  Per §4.3 and §6 of the spec the signer derives a fresh
per-round seed, initializes its first round from the delivered context
and index, and returns its public nonce. -/
def signerNonceResponse (req : GenerateNonceRequest) (seed : Nat) : Option Nat :=
  (firstRoundNew req.key_agg_ctx seed req.signer_index SecNonceSpices.new).map
    ourPublicNonce

/-- Modelled from the spec: the completeness condition a signer at index
`idx` of a context of `n` keys imposes on a delivered peer map before
finalizing a round (§3 of the spec: exactly one contribution per peer
index; the `musig2` crate rejects out-of-range and own-index
deliveries and refuses to finalize while any peer contribution is
missing). -/
def coverageOk (n idx : Nat) (m : List (Nat × Nat)) : Prop :=
  (∀ j, j < n → j ≠ idx → (hmLookup j m).isSome = true) ∧
    ∀ e ∈ m, e.1 < n ∧ e.1 ≠ idx

instance coverageOkDec (n idx : Nat) (m : List (Nat × Nat)) :
    Decidable (coverageOk n idx m) := by
  unfold coverageOk
  infer_instance

/-- Modelled from the spec: the aggregated nonce a signer computes from
its own seed and the delivered peer nonces — the combination of all
participants' public nonces (order-insensitive, as in MuSig2 nonce
aggregation). -/
def signerAggNonce (seed : Nat) (otherNonces : List (Nat × Nat)) : Nat :=
  nonceOf seed + sumValues otherNonces

/-- Modelled from the spec: the `/nonces` endpoint of the HTTP signer
node.  The signer ingests the delivered peer nonces and finalizes round
one with its secret key; this fails unless every other index of the
context contributed exactly one nonce, and unless the signer's own public
key is the context key at the index it was assigned (a MuSig2 partial
signature is bound to the signer's slot of the aggregation context; a
secret key not matching that slot cannot produce a valid partial). -/
def signerPartialSig (ctx : List PublicKey) (idx seed secret msg : Nat)
    (otherNonces : List (Nat × Nat)) : Option Nat :=
  if coverageOk ctx.length idx otherNonces ∧ ctx[idx]? = some (pubkeyOf secret)
  then some (partialShare ctx idx msg (signerAggNonce seed otherNonces))
  else none

/-- Modelled from the spec: the `/partial-signatures` endpoint of the
HTTP signer node.  The signer ingests the delivered peer partial
signatures and finalizes round two, combining its own partial signature
with all the delivered ones into the final signature
`(aggregated nonce, combined s)`. -/
def signerFinalSig (ctx : List PublicKey) (idx seed secret msg : Nat)
    (otherNonces otherSigs : List (Nat × Nat)) : Option (Nat × Nat) :=
  match signerPartialSig ctx idx seed secret msg otherNonces with
  | none => none
  | some p =>
    if coverageOk ctx.length idx otherSigs
    then some (signerAggNonce seed otherNonces, p + sumValues otherSigs)
    else none

/-- The nonce fan-out of `src/bin/operator.rs:151-154`: the map delivered
to the signer with registration index `i` is the full collected nonce map
with the entry at key `i` removed (`other_nonces.remove(&i)`). -/
def noncesDeliveredTo (i : Nat) (indexedNonces : List (Nat × Nat)) :
    List (Nat × Nat) := hmErase i indexedNonces

/-- The partial-signature fan-out of `src/bin/operator.rs:184-187`: the
map delivered to the signer with registration index `i` is the full
collected partial-signature map with the entry at key `i` removed
(`other_sigs.remove(&i)`). -/
def sigsDeliveredTo (i : Nat) (indexedSigs : List (Nat × Nat)) :
    List (Nat × Nat) := hmErase i indexedSigs

/-- `OperatorError(String)` (`src/bin/operator.rs:25-29`): the one error
type of the operator; the carried string tells the failures apart. -/
structure OperatorError where
  err : String
deriving DecidableEq, Repr

/-- `SigningResponse` (the success reply of `Operator::sign_message`,
`src/bin/operator.rs:257-262`). -/
structure SigningResponse where
  session_id : String
  aggregated_pubkey : Nat
  aggregated_signature : Nat × Nat
  is_signature_valid : Bool
deriving DecidableEq, Repr

/-- First loop of `Operator::sign_message`
(`src/bin/operator.rs:119-145`): request a nonce from every signer in
map-iteration order, aborting on the first failure, and collect the
nonces into `indexed_nonces` keyed by registration index. -/
def requestNoncesGo (sid : String) (msg : Nat) (ctx : List PublicKey)
    (seedOf : String → Nat) :
    List Entry → List (Nat × Nat) → Except OperatorError (List (Nat × Nat))
  | [], acc => .ok acc
  | e :: rest, acc =>
    match signerNonceResponse ⟨sid, msg, ctx, e.1.1⟩ (seedOf e.2) with
    | none => .error ⟨"Failed to parse nonce response"⟩
    | some n => requestNoncesGo sid msg ctx seedOf rest (hmInsert e.1.1 n acc)

/-- Entry point of the first loop: `indexed_nonces` starts empty. -/
def requestNonces (sid : String) (msg : Nat) (ctx : List PublicKey)
    (seedOf : String → Nat) (iter : List Entry) :
    Except OperatorError (List (Nat × Nat)) :=
  requestNoncesGo sid msg ctx seedOf iter []

/-- Second loop of `Operator::sign_message`
(`src/bin/operator.rs:147-178`): deliver to every signer all other
signers' nonces, aborting on the first failure, and collect the partial
signatures into `indexed_partial_sigs` keyed by registration index. -/
def collectPartialSigsGo (ctx : List PublicKey) (secretOf seedOf : String → Nat)
    (msg : Nat) (nonceMap : List (Nat × Nat)) :
    List Entry → List (Nat × Nat) → Except OperatorError (List (Nat × Nat))
  | [], acc => .ok acc
  | e :: rest, acc =>
    match signerPartialSig ctx e.1.1 (seedOf e.2) (secretOf e.2) msg
        (noncesDeliveredTo e.1.1 nonceMap) with
    | none => .error ⟨"Failed to parse response from /nonces"⟩
    | some p => collectPartialSigsGo ctx secretOf seedOf msg nonceMap rest
        (hmInsert e.1.1 p acc)

/-- Entry point of the second loop: `indexed_partial_sigs` starts
empty. -/
def collectPartialSigs (ctx : List PublicKey) (secretOf seedOf : String → Nat)
    (msg : Nat) (nonceMap : List (Nat × Nat)) (iter : List Entry) :
    Except OperatorError (List (Nat × Nat)) :=
  collectPartialSigsGo ctx secretOf seedOf msg nonceMap iter []

/-- Third loop of `Operator::sign_message`
(`src/bin/operator.rs:180-235`): deliver to every signer all other
signers' partial signatures, aborting on the first failure (a signer-side
error status becomes the operator's `Signer error`), and push the final
signatures into `final_signatures` in iteration order. -/
def collectFinalSigsGo (ctx : List PublicKey) (secretOf seedOf : String → Nat)
    (msg : Nat) (nonceMap sigMap : List (Nat × Nat)) :
    List Entry → List (Nat × Nat) → Except OperatorError (List (Nat × Nat))
  | [], acc => .ok acc
  | e :: rest, acc =>
    match signerFinalSig ctx e.1.1 (seedOf e.2) (secretOf e.2) msg
        (noncesDeliveredTo e.1.1 nonceMap) (sigsDeliveredTo e.1.1 sigMap) with
    | none => .error ⟨"Signer error"⟩
    | some f => collectFinalSigsGo ctx secretOf seedOf msg nonceMap sigMap rest
        (acc ++ [f])

/-- Entry point of the third loop: `final_signatures` starts empty. -/
def collectFinalSigs (ctx : List PublicKey) (secretOf seedOf : String → Nat)
    (msg : Nat) (nonceMap sigMap : List (Nat × Nat)) (iter : List Entry) :
    Except OperatorError (List (Nat × Nat)) :=
  collectFinalSigsGo ctx secretOf seedOf msg nonceMap sigMap iter []

/-- `final_signatures.windows(2).all(|w| w[0] == w[1])`
(`src/bin/operator.rs:238`): adjacent pairs all equal. -/
def windowsAllEq : List (Nat × Nat) → Bool
  | [] => true
  | [_] => true
  | a :: b :: t => (a == b) && windowsAllEq (b :: t)

/-- The consistency check and response of `Operator::sign_message`
(`src/bin/operator.rs:237-264`): error if the final signatures are not
all byte-identical; otherwise take the first one
(`final_signatures[0]` — an out-of-bounds panic on an empty list, modelled
as an error, unreachable from `sign_message` since aggregation fails on
an empty registry), verify it against the aggregated key and the message,
and reply with success carrying `is_signature_valid` — also when
verification failed. -/
def consistencyCheck (sid : String) (finals : List (Nat × Nat))
    (aggpk msg : Nat) : Except OperatorError SigningResponse :=
  if windowsAllEq finals then
    match finals.head? with
    | none => .error ⟨"panic: index out of bounds"⟩
    | some s => .ok ⟨sid, aggpk, s, verifySingle aggpk s msg⟩
  else .error ⟨"Inconsistent final signatures"⟩

/-- The first three phases of `Operator::sign_message`
(`src/bin/operator.rs:89-235`): build the context from the key list in
map-iteration order, then run the three loops; produces the list of
final signatures returned by the N signers, in iteration order. -/
def hubFinals (sid : String) (iter : List Entry)
    (secretOf seedOf : String → Nat) (msg : Nat) :
    Except OperatorError (List (Nat × Nat)) :=
  match keyAggCtxNew (pubkeysOf iter) with
  | none => .error ⟨"Failed to create key aggregation context"⟩
  | some ctx =>
    match requestNonces sid msg ctx seedOf iter with
    | .error e => .error e
    | .ok nm =>
      match collectPartialSigs ctx secretOf seedOf msg nm iter with
      | .error e => .error e
      | .ok pm => collectFinalSigs ctx secretOf seedOf msg nm pm iter

/-- `Operator::sign_message` (`src/bin/operator.rs:89-265`), end to end:
the three phases followed by the consistency check and the response.
`sid` stands for the generated session id, `iter` for the signer map in
iteration order, `secretOf`/`seedOf` for the signers' secret keys and
fresh round seeds, `msg` for the request message. -/
def signMessage (sid : String) (iter : List Entry)
    (secretOf seedOf : String → Nat) (msg : Nat) :
    Except OperatorError SigningResponse :=
  match keyAggCtxNew (pubkeysOf iter) with
  | none => .error ⟨"Failed to create key aggregation context"⟩
  | some ctx =>
    match hubFinals sid iter secretOf seedOf msg with
    | .error e => .error e
    | .ok finals => consistencyCheck sid finals (aggregatedPubkey ctx) msg

/-! ## Derived sequences for the registration-order run

`regListFrom secretOf k addrs` is the signer map produced by registering
one signer per address of `addrs` starting at index `k`, listed in
registration order; `idxListFrom g k addrs` is the association list
`[(k, g k a0), (k+1, g (k+1) a1), ...]` — the shape of the collected
nonce and partial-signature maps of a registration-order run. -/

def regListFrom (secretOf : String → Nat) : Nat → List String → List Entry
  | _, [] => []
  | k, a :: rest => ((k, pubkeyOf (secretOf a)), a) :: regListFrom secretOf (k + 1) rest

def idxListFrom (g : Nat → String → Nat) : Nat → List String → List (Nat × Nat)
  | _, [] => []
  | k, a :: rest => (k, g k a) :: idxListFrom g (k + 1) rest

/-- The context of a registration-order run: the registered public keys
in registration order. -/
def hubCtx (secretOf : String → Nat) (addrs : List String) : List PublicKey :=
  addrs.map fun a => pubkeyOf (secretOf a)

/-- The aggregated nonce of a run: the combination of every signer's
public nonce. -/
def totalNonce (seedOf : String → Nat) (addrs : List String) : Nat :=
  (addrs.map fun a => nonceOf (seedOf a)).sum

/-- The final signature every signer of a registration-order run
returns. -/
def hubSig (secretOf seedOf : String → Nat) (msg : Nat)
    (addrs : List String) : Nat × Nat :=
  (totalNonce seedOf addrs,
   sigTarget (hubCtx secretOf addrs) msg (totalNonce seedOf addrs))

end Musig2Spec

deriving instance DecidableEq for Except

namespace Musig2Spec

/-! ## Association-list lemmas -/

theorem hmLookup_erase_self {κ β : Type} [DecidableEq κ] (k : κ)
    (m : List (κ × β)) : hmLookup k (hmErase k m) = none := by
  induction m with
  | nil => rfl
  | cons e rest ih =>
    by_cases h : e.1 = k <;> simp [hmErase, hmLookup, h, ih]

theorem hmLookup_erase_ne {κ β : Type} [DecidableEq κ] {j k : κ}
    (m : List (κ × β)) (h : j ≠ k) :
    hmLookup j (hmErase k m) = hmLookup j m := by
  induction m with
  | nil => rfl
  | cons e rest ih =>
    by_cases hek : e.1 = k
    · have hej : e.1 ≠ j := fun hh => h (hh.symm.trans hek)
      simp only [hmErase, if_pos hek, hmLookup, if_neg hej]
      exact ih
    · simp only [hmErase, if_neg hek, hmLookup]
      by_cases hej : e.1 = j
      · simp only [if_pos hej]
      · simp only [if_neg hej]
        exact ih

theorem mem_of_mem_hmErase {κ β : Type} [DecidableEq κ] {k : κ}
    {e : κ × β} {m : List (κ × β)} (h : e ∈ hmErase k m) :
    e ∈ m ∧ e.1 ≠ k := by
  induction m with
  | nil => cases h
  | cons f rest ih =>
    by_cases hfk : f.1 = k
    · simp only [hmErase, if_pos hfk] at h
      exact ⟨List.mem_cons_of_mem f (ih h).1, (ih h).2⟩
    · simp only [hmErase, if_neg hfk] at h
      rcases List.mem_cons.mp h with he | he
      · exact ⟨by simp [he], by rw [he]; exact hfk⟩
      · exact ⟨List.mem_cons_of_mem f (ih he).1, (ih he).2⟩

theorem hmErase_of_not_mem {κ β : Type} [DecidableEq κ] {k : κ}
    {m : List (κ × β)} (h : k ∉ keysOf m) : hmErase k m = m := by
  induction m with
  | nil => rfl
  | cons e rest ih =>
    simp only [keysOf, List.map_cons, List.mem_cons] at h
    push_neg at h
    have hek : e.1 ≠ k := fun hh => h.1 hh.symm
    simp [hmErase, hek, ih (by simpa [keysOf] using h.2)]

theorem hmErase_length_of_mem {κ β : Type} [DecidableEq κ] {k : κ} {v : β}
    {m : List (κ × β)} (hnd : (keysOf m).Nodup) (hmem : (k, v) ∈ m) :
    (hmErase k m).length + 1 = m.length := by
  induction m with
  | nil => cases hmem
  | cons e rest ih =>
    simp only [keysOf, List.map_cons, List.nodup_cons] at hnd
    by_cases hek : e.1 = k
    · have : k ∉ keysOf rest := by rw [← hek]; exact hnd.1
      simp [hmErase, hek, hmErase_of_not_mem this]
    · have hmem2 : (k, v) ∈ rest := by
        rcases List.mem_cons.mp hmem with he | he
        · exact absurd (congrArg Prod.fst he.symm) hek
        · exact he
      simp only [hmErase, if_neg hek, List.length_cons]
      rw [← ih (by simpa [keysOf] using hnd.2) hmem2]

theorem sum_hmErase {κ : Type} [DecidableEq κ] {k : κ} {v : Nat}
    {m : List (κ × Nat)} (hnd : (keysOf m).Nodup) (hmem : (k, v) ∈ m) :
    v + sumValues (hmErase k m) = sumValues m := by
  induction m with
  | nil => cases hmem
  | cons e rest ih =>
    simp only [keysOf, List.map_cons, List.nodup_cons] at hnd
    by_cases hek : e.1 = k
    · have hrest : k ∉ keysOf rest := by rw [← hek]; exact hnd.1
      have hev : e = (k, v) := by
        rcases List.mem_cons.mp hmem with he | he
        · exact he.symm
        · exact absurd (List.mem_map_of_mem Prod.fst he) (by rw [hek] at hnd; exact fun hh => hnd.1 (by simpa [keysOf] using hh))
      simp [hmErase, hek, hmErase_of_not_mem hrest, sumValues, hev]
    · have hmem2 : (k, v) ∈ rest := by
        rcases List.mem_cons.mp hmem with he | he
        · exact absurd (congrArg Prod.fst he.symm) hek
        · exact he
      have := ih (by simpa [keysOf] using hnd.2) hmem2
      simp only [hmErase, if_neg hek, sumValues, List.map_cons, List.sum_cons] at *
      omega

theorem hmLookup_none_of_keys {κ β : Type} [DecidableEq κ] {k : κ}
    {m : List (κ × β)} (h : ∀ e ∈ m, e.1 ≠ k) : hmLookup k m = none := by
  induction m with
  | nil => rfl
  | cons e rest ih =>
    simp [hmLookup, h e (by simp), ih fun f hf => h f (List.mem_cons_of_mem e hf)]

theorem hmInsert_of_lookup_none {κ β : Type} [DecidableEq κ] {k : κ} (v : β)
    {m : List (κ × β)} (h : hmLookup k m = none) :
    hmInsert k v m = m ++ [(k, v)] := by
  induction m with
  | nil => rfl
  | cons e rest ih =>
    by_cases hek : e.1 = k
    · simp [hmLookup, hek] at h
    · simp only [hmLookup, if_neg hek] at h
      simp [hmInsert, hek, ih h]

/-! ## Characterization of `handle_public_key` -/

theorem handlePublicKey_gate_false (key : PublicKey) (seed : Nat)
    (st : SharedState) (hrecv : publicKeysReceived (addPublicKey st key) = false) :
    handlePublicKey key seed st = .ok (addPublicKey st key, none) := by
  unfold handlePublicKey
  simp [hrecv]

theorem handlePublicKey_gate_true (key : PublicKey) (seed : Nat)
    (st : SharedState) (hrecv : publicKeysReceived (addPublicKey st key) = true) :
    handlePublicKey key seed st = .ok
      ({ addPublicKey st key with nonces := st.nonces ++ [nonceOf seed] },
       some ⟨(st.public_keys ++ [key]) ++ [st.own_public_key], seed, 0,
         SecNonceSpices.new⟩) := by
  unfold handlePublicKey
  simp only [addPublicKey] at hrecv
  have hempty : ((st.public_keys ++ [key]) ++ [st.own_public_key]).isEmpty
      = false := by
    simp
  simp [hrecv, keyAggCtxNew, firstRoundNew, ourPublicNonce, addPublicKey,
    hempty]

end Musig2Spec

namespace Musig2Spec

/-! ## The claims -/

/-- Claim C5: for every participant i, the nonce fan-out delivered to i is
the full collected nonce map minus i's own entry — exactly N−1 entries,
lookups of every other index unchanged — and likewise for the
partial-signature fan-out; a participant's own contribution is never sent
back to it. -/
theorem fanout_excludes_own_entry (m : List (Nat × Nat)) (i v : Nat)
    (hnd : (keysOf m).Nodup) (hmem : (i, v) ∈ m) :
    ((noncesDeliveredTo i m).length + 1 = m.length ∧
     hmLookup i (noncesDeliveredTo i m) = none ∧
     ∀ j, j ≠ i → hmLookup j (noncesDeliveredTo i m) = hmLookup j m) ∧
    ((sigsDeliveredTo i m).length + 1 = m.length ∧
     hmLookup i (sigsDeliveredTo i m) = none ∧
     ∀ j, j ≠ i → hmLookup j (sigsDeliveredTo i m) = hmLookup j m) := by
  simp only [noncesDeliveredTo, sigsDeliveredTo]
  exact ⟨⟨hmErase_length_of_mem hnd hmem, hmLookup_erase_self i m,
      fun j hj => hmLookup_erase_ne m hj⟩,
    ⟨hmErase_length_of_mem hnd hmem, hmLookup_erase_self i m,
      fun j hj => hmLookup_erase_ne m hj⟩⟩

/-- Witness for C5 at a concrete two-signer nonce map. -/
theorem fanout_excludes_own_entry_witness :
    (keysOf [(0, 5), (1, 7)]).Nodup ∧
    (noncesDeliveredTo 0 [(0, 5), (1, 7)]).length + 1 = 2 ∧
    hmLookup 0 (noncesDeliveredTo 0 [(0, 5), (1, 7)]) = none ∧
    (sigsDeliveredTo 0 [(0, 5), (1, 7)]).length + 1 = 2 :=
  ⟨by decide,
   (fanout_excludes_own_entry [(0, 5), (1, 7)] 0 5 (by decide) (by decide)).1.1,
   (fanout_excludes_own_entry [(0, 5), (1, 7)] 0 5 (by decide) (by decide)).1.2.1,
   (fanout_excludes_own_entry [(0, 5), (1, 7)] 0 5 (by decide) (by decide)).2.1⟩

theorem sortPubkeys_perm (l : List PublicKey) : (sortPubkeys l).Perm l :=
  List.mergeSort_perm l _

theorem sortPubkeys_sorted (l : List PublicKey) :
    List.Sorted (fun a b : PublicKey => a ≤ b) (sortPubkeys l) := by
  have htrans : ∀ a b c : PublicKey,
      decide (serializeKey a ≤ serializeKey b) = true →
      decide (serializeKey b ≤ serializeKey c) = true →
      decide (serializeKey a ≤ serializeKey c) = true := by
    intro a b c hab hbc
    simp only [decide_eq_true_eq, serializeKey] at *
    omega
  have htotal : ∀ a b : PublicKey,
      (decide (serializeKey a ≤ serializeKey b)
        || decide (serializeKey b ≤ serializeKey a)) = true := by
    intro a b
    simp only [Bool.or_eq_true, decide_eq_true_eq, serializeKey]
    omega
  exact List.Pairwise.imp (fun hab => of_decide_eq_true hab)
    (List.sorted_mergeSort htrans htotal l)

theorem sortPubkeys_eq_of_sorted {l r : List PublicKey} (hp : l.Perm r)
    (hs : List.Sorted (fun a b : PublicKey => a ≤ b) r) :
    sortPubkeys l = r := by
  haveI : IsAntisymm PublicKey (fun a b => a ≤ b) :=
    ⟨fun a b h1 h2 => Nat.le_antisymm h1 h2⟩
  exact List.eq_of_perm_of_sorted ((sortPubkeys_perm l).trans hp)
    (sortPubkeys_sorted l) hs

/-- Claim C8: the canonical identity ordering — sorting by the serialized
public key, `src/session.rs:18` — is deterministic: any two applications
of the sort to the same identity set, whatever the input permutation,
yield identical sequences. -/
theorem canonical_sort_deterministic (l1 l2 : List PublicKey)
    (h : l1.Perm l2) : sortPubkeys l1 = sortPubkeys l2 :=
  sortPubkeys_eq_of_sorted (h.trans (sortPubkeys_perm l2).symm)
    (sortPubkeys_sorted l2)

/-- Witness for C8 on two permutations of one concrete key set. -/
theorem canonical_sort_deterministic_witness :
    ([3, 1, 2] : List PublicKey).Perm [2, 3, 1] ∧
    sortPubkeys [3, 1, 2] = sortPubkeys [2, 3, 1] :=
  ⟨by decide, canonical_sort_deterministic [3, 1, 2] [2, 3, 1] (by decide)⟩

/-- Claim C9: context construction is idempotent once established —
`src/session.rs:22-25` returns without rebuilding when the stored session
is already set, leaving it unchanged, whatever peer set triggered the
later invocation. -/
theorem session_init_idempotent (peers : List PublicKey) (own : PublicKey)
    (c : List PublicKey) :
    initializeSigningSession peers own (some c) = some c := by
  simp [initializeSigningSession]

/-- Claim C6 (amended): the websocket variant builds its context — from
the sorted list of its own and all currently held peer identities — on
any completed handshake while no session is established, with no N−1
threshold; the raw-TCP variant builds its context exactly when the count
of received peer keys, duplicates included, reaches N−1, from the
unsorted list `public_keys ++ [own_public_key]`, with `FirstRound` built
on the spot. -/
theorem context_build_gating (peers : List PublicKey) (own key : PublicKey)
    (st : SharedState) (seed : Nat) :
    initializeSigningSession peers own none
      = some (sortPubkeys (peers ++ [own])) ∧
    (publicKeysReceived (addPublicKey st key) = false →
      handlePublicKey key seed st = .ok (addPublicKey st key, none)) ∧
    (publicKeysReceived (addPublicKey st key) = true →
      handlePublicKey key seed st = .ok
        ({ addPublicKey st key with nonces := st.nonces ++ [nonceOf seed] },
         some ⟨(st.public_keys ++ [key]) ++ [st.own_public_key], seed, 0,
           SecNonceSpices.new⟩)) := by
  refine ⟨?_, handlePublicKey_gate_false key seed st,
    handlePublicKey_gate_true key seed st⟩
  have hlen : (sortPubkeys (peers ++ [own])).length = peers.length + 1 := by
    simp [sortPubkeys, (List.mergeSort_perm (peers ++ [own]) _).length_eq]
  have hempty : (sortPubkeys (peers ++ [own])).isEmpty = false := by
    cases hs : sortPubkeys (peers ++ [own]) with
    | nil => rw [hs] at hlen; cases hlen
    | cons a t => simp
  simp [initializeSigningSession, keyAggCtxNew, hempty]

/-- Witness for C6: a websocket node with a single held peer builds the
sorted context, and a TCP node one key short of the barrier does not
build. -/
theorem context_build_gating_witness :
    initializeSigningSession [5] 1 none = some (sortPubkeys ([5] ++ [1])) ∧
    handlePublicKey 5 7 (SharedState.new 1 3)
      = .ok (addPublicKey (SharedState.new 1 3) 5, none) :=
  ⟨(context_build_gating [5] 1 5 (SharedState.new 1 3) 7).1,
   (context_build_gating [5] 1 5 (SharedState.new 1 3) 7).2.1 (by decide)⟩

/-- Counterexample for C6 as stated: with N = 3, delivering the same peer
key twice satisfies the barrier — the context is built while only one
distinct peer identity is held — and the key list it is built from,
`[5, 5, 1]`, is neither deduplicated nor sorted; independently, the
websocket variant builds its context on the very first handshake, with a
single held peer. -/
theorem context_built_from_duplicate_unsorted_keys :
    handlePublicKey 5 8 (addPublicKey (SharedState.new 1 3) 5)
      = .ok (⟨1, [5, 5], [9], [], 3, none⟩,
             some ⟨[5, 5, 1], 8, 0, SecNonceSpices.new⟩) ∧
    ([5, 5] : List Nat).dedup.length = 1 ∧
    sortPubkeys [5, 5, 1] = [1, 5, 5] ∧
    ([5, 5, 1] : List PublicKey) ≠ sortPubkeys [5, 5, 1] ∧
    initializeSigningSession [5] 1 none = some [1, 5] := by
  have hsort : sortPubkeys [5, 5, 1] = [1, 5, 5] :=
    sortPubkeys_eq_of_sorted (by decide) (by decide)
  have hsort2 : sortPubkeys [5, 1] = [1, 5] :=
    sortPubkeys_eq_of_sorted (by decide) (by decide)
  refine ⟨by decide, by decide, hsort, ?_, ?_⟩
  · rw [hsort]; decide
  · simp [initializeSigningSession, hsort2, keyAggCtxNew]

/-- Claim C10: whenever the raw-TCP first-round initialization is
reached, the `FirstRound` is constructed with signer index 0 and an empty
`SecNonceSpices`, and over the unsorted collected key list — whatever the
position of the node's own key in that list. -/
theorem first_round_index_zero_empty_spices (key : PublicKey) (seed : Nat)
    (st stNew : SharedState) (fr : FirstRoundSt)
    (h : handlePublicKey key seed st = .ok (stNew, some fr)) :
    fr.signer_index = 0 ∧ fr.spices = SecNonceSpices.new ∧
    fr.key_agg_ctx = (st.public_keys ++ [key]) ++ [st.own_public_key] := by
  by_cases hrecv : publicKeysReceived (addPublicKey st key) = true
  · rw [handlePublicKey_gate_true key seed st hrecv] at h
    injection h with hp
    have h2 := congrArg Prod.snd hp
    simp only [Option.some.injEq] at h2
    rw [← h2]
    exact ⟨rfl, rfl, rfl⟩
  · rw [handlePublicKey_gate_false key seed st
      (Bool.not_eq_true _ ▸ hrecv)] at h
    injection h with hp
    have h2 := congrArg Prod.snd hp
    simp at h2

/-- Witness for C10 at a concrete two-signer node whose own key sorts
before the received key (its slot in the aggregated list is not 0). -/
theorem first_round_index_zero_witness :
    ({ key_agg_ctx := [5, 3], nonce_seed := 9, signer_index := 0,
       spices := SecNonceSpices.new } : FirstRoundSt).signer_index = 0 ∧
    ({ key_agg_ctx := [5, 3], nonce_seed := 9, signer_index := 0,
       spices := SecNonceSpices.new } : FirstRoundSt).spices
      = SecNonceSpices.new ∧
    ({ key_agg_ctx := [5, 3], nonce_seed := 9, signer_index := 0,
       spices := SecNonceSpices.new } : FirstRoundSt).key_agg_ctx
      = ([] ++ [5]) ++ [3] :=
  first_round_index_zero_empty_spices 5 9 (SharedState.new 3 2)
    ⟨3, [5], [10], [], 2, none⟩
    ⟨[5, 3], 9, 0, SecNonceSpices.new⟩ (by decide)

/-- Claim C7 (amended): the readiness predicates of `SharedState` compare
the raw count of collected contributions — with multiplicity — to N−1, so
two deliveries of one and the same contribution advance each barrier by
two. -/
theorem readiness_counts_multiplicity (st : SharedState) (x y : Nat) :
    (noncesReceived (addNonce (addNonce st x) x) = true ↔
      st.nonces.length + 2 = st.num_of_signers - 1) ∧
    (partialSignaturesReceived
        (addPartialSignature (addPartialSignature st y) y) = true ↔
      st.partial_signatures.length + 2 = st.num_of_signers - 1) := by
  constructor
  · simp only [noncesReceived, addNonce, List.append_assoc,
      List.length_append, List.length_cons, List.length_nil, beq_iff_eq]
  · simp only [partialSignaturesReceived, addPartialSignature,
      List.append_assoc, List.length_append, List.length_cons,
      List.length_nil, beq_iff_eq]

/-- Counterexample for C7 as stated: with N = 3, two deliveries of one
and the same nonce (respectively partial signature) satisfy the barrier
although only one distinct contribution was collected. -/
theorem barrier_satisfied_by_duplicates :
    noncesReceived (addNonce (addNonce (SharedState.new 1 3) 5) 5) = true ∧
    (addNonce (addNonce (SharedState.new 1 3) 5) 5).nonces = [5, 5] ∧
    (addNonce (addNonce (SharedState.new 1 3) 5) 5).nonces.dedup.length = 1 ∧
    partialSignaturesReceived
      (addPartialSignature (addPartialSignature (SharedState.new 1 3) 7) 7)
      = true ∧
    (addPartialSignature (addPartialSignature (SharedState.new 1 3) 7)
      7).partial_signatures.dedup.length = 1 := by decide

/-- Claim C4 (amended): after finalization the coordinator errors out
whenever the returned final signatures are not all identical; but when
they are identical and the accepted signature fails verification, it
replies with a success response carrying `is_signature_valid` — a
verification failure is reported through that flag, not as an error. -/
theorem consistency_check_behavior (sid : String)
    (finals : List (Nat × Nat)) (aggpk msg : Nat) :
    (windowsAllEq finals = false →
      consistencyCheck sid finals aggpk msg
        = .error ⟨"Inconsistent final signatures"⟩) ∧
    (∀ s rest, finals = s :: rest → windowsAllEq finals = true →
      consistencyCheck sid finals aggpk msg
        = .ok ⟨sid, aggpk, s, verifySingle aggpk s msg⟩) := by
  constructor
  · intro hfail
    simp [consistencyCheck, hfail]
  · intro s rest hcons hall
    subst hcons
    simp [consistencyCheck, hall]

/-- Witness for C4's amended statement: a divergent pair errors, a
consistent singleton is accepted with its verification flag. -/
theorem consistency_check_behavior_witness :
    consistencyCheck "s" [(0, 1), (0, 2)] 0 0
      = .error ⟨"Inconsistent final signatures"⟩ ∧
    consistencyCheck "s" [(0, 1)] 0 0
      = .ok ⟨"s", 0, (0, 1), verifySingle 0 (0, 1) 0⟩ :=
  ⟨(consistency_check_behavior "s" [(0, 1), (0, 2)] 0 0).1 (by decide),
   (consistency_check_behavior "s" [(0, 1)] 0 0).2 (0, 1) [] rfl (by decide)⟩

/-- Counterexample for C4 as stated: two identical final signatures that
fail verification produce a success reply with `is_signature_valid =
false`, not an error. -/
theorem verification_failure_reported_as_success :
    consistencyCheck "s" [(0, 1), (0, 1)] 0 0
      = .ok ⟨"s", 0, (0, 1), false⟩ ∧
    verifySingle 0 (0, 1) 0 = false := by decide

/-- Claim C3 (amended): registration performs no duplicate-identity
check — any registration, an already-registered identity included, is
appended under the next index with the unconditional success reply — and
session creation aggregates the duplicate-containing key list without a
duplicate-identity error (only an empty list fails). -/
theorem registration_appends_silently (m : List Entry) (pk : PublicKey)
    (addr : String) (hinv : ∀ e ∈ m, e.1.1 < m.length) :
    (registerSigner m pk addr).1 = m ++ [((m.length, pk), addr)] ∧
    (registerSigner m pk addr).2
      = "Registered successfully with public key" ∧
    pubkeysOf (registerSigner m pk addr).1 = pubkeysOf m ++ [pk] ∧
    keyAggCtxNew (pubkeysOf (registerSigner m pk addr).1)
      = some (pubkeysOf m ++ [pk]) := by
  have hlook : hmLookup (m.length, pk) m = none := by
    apply hmLookup_none_of_keys
    intro e he heq
    exact absurd (hinv e he) (by rw [heq]; omega)
  have happ : (registerSigner m pk addr).1 = m ++ [((m.length, pk), addr)] :=
    hmInsert_of_lookup_none addr hlook
  refine ⟨happ, rfl, ?_, ?_⟩
  · rw [happ]; simp [pubkeysOf]
  · rw [happ]
    have hne : (pubkeysOf (m ++ [((m.length, pk), addr)])).isEmpty = false := by
      simp [pubkeysOf]
    simp [keyAggCtxNew, hne, pubkeysOf]

/-- Witness for C3's amended statement: the second registration of the
identity `3` is appended under index 1 and aggregation succeeds over
`[3, 3]`. -/
theorem registration_appends_silently_witness :
    (registerSigner [((0, 3), "a")] 3 "b").1
      = [((0, 3), "a")] ++ [((1, 3), "b")] ∧
    (registerSigner [((0, 3), "a")] 3 "b").2
      = "Registered successfully with public key" ∧
    pubkeysOf (registerSigner [((0, 3), "a")] 3 "b").1
      = pubkeysOf [((0, 3), "a")] ++ [3] ∧
    keyAggCtxNew (pubkeysOf (registerSigner [((0, 3), "a")] 3 "b").1)
      = some (pubkeysOf [((0, 3), "a")] ++ [3]) :=
  registration_appends_silently [((0, 3), "a")] 3 "b" (by decide)

/-- Claim C2, evaluated at the failing input: two signers registered in
order "a" (secret 1, identity 3, index 0) then "b" (secret 2, identity 5,
index 1); the hub map iterated as `[((1,5),"b"), ((0,3),"a")]` — a
permutation of the registered entries, so a possible `HashMap` iteration
order.  The key list the context is built from is then `[5, 3]`: the
identity registered with index 0 occupies position 1, not position 0.
The nonce requests do carry each signer's registration index. -/
theorem context_list_order_diverges_from_registration :
    regFold (fun a => if a = "a" then 1 else 2) ["a", "b"]
      = [((0, 3), "a"), ((1, 5), "b")] ∧
    ([((1, 5), "b"), ((0, 3), "a")] : List Entry).Perm
      (regFold (fun a => if a = "a" then 1 else 2) ["a", "b"]) ∧
    pubkeysOf [((1, 5), "b"), ((0, 3), "a")] = [5, 3] ∧
    (pubkeysOf [((1, 5), "b"), ((0, 3), "a")])[1]? = some 3 ∧
    (pubkeysOf [((1, 5), "b"), ((0, 3), "a")])[0]? ≠ some 3 ∧
    (nonceRequestsFor "s" 0 [5, 3] [((1, 5), "b"), ((0, 3), "a")]).map
      GenerateNonceRequest.signer_index = [1, 0] := by decide

/-- Counterexample for C1 as stated: for the same two registered signers,
under the map-iteration order `[((1,5),"b"), ((0,3),"a")]` — a
permutation of the registered entries — `sign_message` aborts with an
error during the partial-signature phase instead of yielding a verifying
signature at every participant. -/
theorem hub_protocol_not_unconditional :
    ([((1, 5), "b"), ((0, 3), "a")] : List Entry).Perm
      (regFold (fun a => if a = "a" then 1 else 2) ["a", "b"]) ∧
    signMessage "s" [((1, 5), "b"), ((0, 3), "a")]
      (fun a => if a = "a" then 1 else 2) (fun _ => 0) 0
      = .error ⟨"Failed to parse response from /nonces"⟩ := by decide

/-- Counterexample for C3 as stated: re-registering the identity `3` is
not rejected — the map silently gains a second entry for it, the success
reply is returned, the duplicate-containing key list aggregates without
error, and nonce requests are then issued to both entries. -/
theorem duplicate_registration_not_rejected :
    registerSigner [] 3 "a"
      = ([((0, 3), "a")], "Registered successfully with public key") ∧
    registerSigner [((0, 3), "a")] 3 "b"
      = ([((0, 3), "a"), ((1, 3), "b")],
         "Registered successfully with public key") ∧
    keyAggCtxNew (pubkeysOf [((0, 3), "a"), ((1, 3), "b")]) = some [3, 3] ∧
    requestNonces "s" 0 [3, 3] (fun _ => 0) [((0, 3), "a"), ((1, 3), "b")]
      = .ok [(0, 1), (1, 1)] := by decide

/-! ## The registration-order run of the hub protocol -/

theorem sumValues_cons {κ : Type} (e : κ × Nat) (t : List (κ × Nat)) :
    sumValues (e :: t) = e.2 + sumValues t := by
  simp [sumValues]

theorem regFold_go (secretOf : String → Nat) (addrs : List String) :
    ∀ m : List Entry, (∀ e ∈ m, e.1.1 < m.length) →
      addrs.foldl (fun m a => (registerSigner m (pubkeyOf (secretOf a)) a).1) m
        = m ++ regListFrom secretOf m.length addrs := by
  induction addrs with
  | nil => intro m _; simp [regListFrom]
  | cons a rest ih =>
    intro m hinv
    have hlook : hmLookup (m.length, pubkeyOf (secretOf a)) m = none := by
      apply hmLookup_none_of_keys
      intro e he heq
      exact absurd (hinv e he) (by rw [heq]; simp)
    have hstep : (registerSigner m (pubkeyOf (secretOf a)) a).1
        = m ++ [((m.length, pubkeyOf (secretOf a)), a)] :=
      hmInsert_of_lookup_none a hlook
    have hinv2 : ∀ e ∈ m ++ [((m.length, pubkeyOf (secretOf a)), a)],
        e.1.1 < (m ++ [((m.length, pubkeyOf (secretOf a)), a)]).length := by
      intro e he
      simp only [List.length_append, List.length_cons, List.length_nil]
      rcases List.mem_append.mp he with h1 | h1
      · have := hinv e h1
        omega
      · simp only [List.mem_singleton] at h1
        subst h1
        simp
    rw [List.foldl_cons, hstep, ih _ hinv2]
    simp [regListFrom, List.length_append]

theorem regFold_eq (secretOf : String → Nat) (addrs : List String) :
    regFold secretOf addrs = regListFrom secretOf 0 addrs := by
  have h := regFold_go secretOf addrs [] (by intro e he; cases he)
  simpa [regFold] using h

theorem regListFrom_pubkeys (secretOf : String → Nat) :
    ∀ (addrs : List String) (k : Nat),
      pubkeysOf (regListFrom secretOf k addrs) = hubCtx secretOf addrs := by
  intro addrs
  induction addrs with
  | nil => intro k; rfl
  | cons a rest ih =>
    intro k
    simp only [regListFrom, pubkeysOf, List.map_cons, hubCtx] at *
    rw [ih (k + 1)]

theorem idxListFrom_bounds (g : Nat → String → Nat) :
    ∀ (addrs : List String) (k : Nat) (e : Nat × Nat),
      e ∈ idxListFrom g k addrs → k ≤ e.1 ∧ e.1 < k + addrs.length := by
  intro addrs
  induction addrs with
  | nil => intro k e he; cases he
  | cons a rest ih =>
    intro k e he
    simp only [List.length_cons]
    rcases List.mem_cons.mp he with h1 | h1
    · subst h1
      show k ≤ k ∧ k < k + (rest.length + 1)
      omega
    · have := ih (k + 1) e h1
      omega

theorem idxListFrom_nodup (g : Nat → String → Nat) :
    ∀ (addrs : List String) (k : Nat),
      (keysOf (idxListFrom g k addrs)).Nodup := by
  intro addrs
  induction addrs with
  | nil => intro k; simp [idxListFrom, keysOf]
  | cons a rest ih =>
    intro k
    simp only [idxListFrom, keysOf, List.map_cons, List.nodup_cons]
    refine ⟨?_, ih (k + 1)⟩
    intro hmem
    rcases List.mem_map.mp hmem with ⟨e, he, heq⟩
    have := idxListFrom_bounds g rest (k + 1) e he
    omega

theorem idxListFrom_lookup_isSome (g : Nat → String → Nat) :
    ∀ (addrs : List String) (k j : Nat), k ≤ j → j < k + addrs.length →
      (hmLookup j (idxListFrom g k addrs)).isSome = true := by
  intro addrs
  induction addrs with
  | nil =>
    intro k j h1 h2
    simp only [List.length_nil] at h2
    omega
  | cons a rest ih =>
    intro k j h1 h2
    simp only [List.length_cons] at h2
    by_cases hkj : k = j
    · have hcond : ((k, g k a) : Nat × Nat).1 = j := hkj
      simp only [idxListFrom, hmLookup, if_pos hcond, Option.isSome_some]
    · have hcond : ¬(((k, g k a) : Nat × Nat).1 = j) := hkj
      simp only [idxListFrom, hmLookup, if_neg hcond]
      exact ih (k + 1) j (by omega) (by omega)

theorem idxListFrom_mem (g : Nat → String → Nat) :
    ∀ (addrs : List String) (k p : Nat) (a : String), addrs[p]? = some a →
      (k + p, g (k + p) a) ∈ idxListFrom g k addrs := by
  intro addrs
  induction addrs with
  | nil => intro k p a h; simp at h
  | cons b rest ih =>
    intro k p a h
    cases p with
    | zero =>
      simp only [List.getElem?_cons_zero, Option.some.injEq] at h
      subst h
      simp [idxListFrom]
    | succ q =>
      simp only [List.getElem?_cons_succ] at h
      have hmem := ih (k + 1) q a h
      have harith : k + (q + 1) = (k + 1) + q := by omega
      rw [harith]
      exact List.mem_cons_of_mem _ hmem

theorem idxListFrom_sum_const (f : String → Nat) :
    ∀ (addrs : List String) (k : Nat),
      sumValues (idxListFrom (fun _ a => f a) k addrs) = (addrs.map f).sum := by
  intro addrs
  induction addrs with
  | nil => intro k; rfl
  | cons a rest ih =>
    intro k
    simp only [idxListFrom, sumValues_cons, List.map_cons, List.sum_cons]
    exact congrArg (fun x => f a + x) (ih (k + 1))

theorem idxListFrom_sum_shares_pos (ctx : List PublicKey) (msg R : Nat) :
    ∀ (addrs : List String) (k : Nat), 1 ≤ k →
      sumValues (idxListFrom (fun j _ => partialShare ctx j msg R) k addrs)
        = 0 := by
  intro addrs
  induction addrs with
  | nil => intro k _; rfl
  | cons a rest ih =>
    intro k hk
    simp only [idxListFrom, sumValues_cons]
    have h0 : partialShare ctx k msg R = 0 := by
      unfold partialShare
      rw [if_neg (by omega)]
    rw [h0, ih (k + 1) (by omega)]

theorem idxListFrom_sum_shares (ctx : List PublicKey) (msg R : Nat)
    (a : String) (rest : List String) :
    sumValues (idxListFrom (fun j _ => partialShare ctx j msg R) 0 (a :: rest))
      = sigTarget ctx msg R := by
  simp only [idxListFrom, sumValues_cons]
  rw [idxListFrom_sum_shares_pos ctx msg R rest 1 (le_refl 1)]
  simp [partialShare]

theorem getElem?_lt_length {α : Type} {l : List α} {k : Nat} {a : α}
    (ha : l[k]? = some a) : k < l.length := by
  by_contra hge
  rw [List.getElem?_eq_none (by omega)] at ha
  cases ha

theorem hubCtx_length (secretOf : String → Nat) (addrs : List String) :
    (hubCtx secretOf addrs).length = addrs.length := by
  simp [hubCtx]

theorem coverage_delivered (g : Nat → String → Nat) (addrs : List String)
    (k : Nat) (_hk : k < addrs.length) :
    coverageOk addrs.length k (hmErase k (idxListFrom g 0 addrs)) := by
  constructor
  · intro j hj hjk
    rw [hmLookup_erase_ne _ hjk]
    exact idxListFrom_lookup_isSome g addrs 0 j (Nat.zero_le j) (by omega)
  · intro e he
    have h2 := mem_of_mem_hmErase he
    have h3 := idxListFrom_bounds g addrs 0 e h2.1
    exact ⟨by omega, h2.2⟩

theorem signerAggNonce_at (seedOf : String → Nat) (addrs : List String)
    (k : Nat) (a : String) (ha : addrs[k]? = some a) :
    signerAggNonce (seedOf a)
      (noncesDeliveredTo k
        (idxListFrom (fun _ x => nonceOf (seedOf x)) 0 addrs))
      = totalNonce seedOf addrs := by
  have hnodup := idxListFrom_nodup (fun _ x => nonceOf (seedOf x)) addrs 0
  have hmem : (k, nonceOf (seedOf a))
      ∈ idxListFrom (fun _ x => nonceOf (seedOf x)) 0 addrs := by
    have := idxListFrom_mem (fun _ x => nonceOf (seedOf x)) addrs 0 k a ha
    simpa using this
  have hsum := sum_hmErase hnodup hmem
  have htot := idxListFrom_sum_const (fun x => nonceOf (seedOf x)) addrs 0
  simp only [signerAggNonce, noncesDeliveredTo]
  rw [hsum, htot]
  rfl

theorem signerPartialSig_at (secretOf seedOf : String → Nat) (msg : Nat)
    (addrs : List String) (k : Nat) (a : String)
    (ha : addrs[k]? = some a) :
    signerPartialSig (hubCtx secretOf addrs) k (seedOf a) (secretOf a) msg
      (noncesDeliveredTo k
        (idxListFrom (fun _ x => nonceOf (seedOf x)) 0 addrs))
      = some (partialShare (hubCtx secretOf addrs) k msg
          (totalNonce seedOf addrs)) := by
  have hk : k < addrs.length := getElem?_lt_length ha
  have hctxk : (hubCtx secretOf addrs)[k]? = some (pubkeyOf (secretOf a)) := by
    simp [hubCtx, List.getElem?_map, ha]
  have hcov : coverageOk (hubCtx secretOf addrs).length k
      (noncesDeliveredTo k
        (idxListFrom (fun _ x => nonceOf (seedOf x)) 0 addrs)) := by
    rw [hubCtx_length]
    exact coverage_delivered _ addrs k hk
  unfold signerPartialSig
  rw [if_pos ⟨hcov, hctxk⟩, signerAggNonce_at seedOf addrs k a ha]

theorem signerFinalSig_at (secretOf seedOf : String → Nat) (msg : Nat)
    (addrs : List String) (hne : addrs ≠ []) (k : Nat) (a : String)
    (ha : addrs[k]? = some a) :
    signerFinalSig (hubCtx secretOf addrs) k (seedOf a) (secretOf a) msg
      (noncesDeliveredTo k
        (idxListFrom (fun _ x => nonceOf (seedOf x)) 0 addrs))
      (sigsDeliveredTo k
        (idxListFrom (fun j _ => partialShare (hubCtx secretOf addrs) j msg
          (totalNonce seedOf addrs)) 0 addrs))
      = some (hubSig secretOf seedOf msg addrs) := by
  have hk : k < addrs.length := getElem?_lt_length ha
  have hcov : coverageOk (hubCtx secretOf addrs).length k
      (sigsDeliveredTo k
        (idxListFrom (fun j _ => partialShare (hubCtx secretOf addrs) j msg
          (totalNonce seedOf addrs)) 0 addrs)) := by
    rw [hubCtx_length]
    exact coverage_delivered _ addrs k hk
  have hmem : (k, partialShare (hubCtx secretOf addrs) k msg
      (totalNonce seedOf addrs))
      ∈ idxListFrom (fun j _ => partialShare (hubCtx secretOf addrs) j msg
          (totalNonce seedOf addrs)) 0 addrs := by
    have := idxListFrom_mem (fun j _ => partialShare (hubCtx secretOf addrs)
      j msg (totalNonce seedOf addrs)) addrs 0 k a ha
    simpa using this
  have hnodup := idxListFrom_nodup (fun j _ =>
    partialShare (hubCtx secretOf addrs) j msg (totalNonce seedOf addrs))
    addrs 0
  have hsum := sum_hmErase hnodup hmem
  obtain ⟨a0, rest0, rfl⟩ := List.exists_cons_of_ne_nil hne
  have htot := idxListFrom_sum_shares (hubCtx secretOf (a0 :: rest0)) msg
    (totalNonce seedOf (a0 :: rest0)) a0 rest0
  simp only [signerFinalSig,
    signerPartialSig_at secretOf seedOf msg (a0 :: rest0) k a ha]
  rw [if_pos hcov, signerAggNonce_at seedOf (a0 :: rest0) k a ha]
  simp only [sigsDeliveredTo] at hsum ⊢
  rw [hsum, htot]
  rfl

theorem requestNonces_reg (sid : String) (msg : Nat)
    (secretOf seedOf : String → Nat) (addrsAll : List String) :
    ∀ (suffix : List String) (k : Nat) (acc : List (Nat × Nat)),
      k + suffix.length ≤ addrsAll.length →
      (∀ e ∈ acc, e.1 < k) →
      requestNoncesGo sid msg (hubCtx secretOf addrsAll) seedOf
        (regListFrom secretOf k suffix) acc
        = .ok (acc ++ idxListFrom (fun _ x => nonceOf (seedOf x)) k suffix) := by
  intro suffix
  induction suffix with
  | nil =>
    intro k acc _ _
    simp [regListFrom, requestNoncesGo, idxListFrom]
  | cons a rest ih =>
    intro k acc hlen hacc
    simp only [List.length_cons] at hlen
    have hresp : signerNonceResponse
        ⟨sid, msg, hubCtx secretOf addrsAll, k⟩ (seedOf a)
        = some (nonceOf (seedOf a)) := by
      have hlt : k < (hubCtx secretOf addrsAll).length := by
        rw [hubCtx_length]
        omega
      unfold signerNonceResponse firstRoundNew
      rw [if_pos hlt]
      rfl
    have hfresh : hmLookup k acc = none := by
      apply hmLookup_none_of_keys
      intro e he heq
      exact absurd (hacc e he) (by rw [heq]; simp)
    simp only [regListFrom, requestNoncesGo, hresp]
    rw [hmInsert_of_lookup_none _ hfresh]
    rw [ih (k + 1) (acc ++ [(k, nonceOf (seedOf a))]) (by omega) ?hacc2]
    case hacc2 =>
      intro e he
      rcases List.mem_append.mp he with h1 | h1
      · have := hacc e h1
        omega
      · simp only [List.mem_singleton] at h1
        subst h1
        simp
    simp [idxListFrom, List.append_assoc]

theorem collectPartialSigs_reg (secretOf seedOf : String → Nat) (msg : Nat)
    (addrsAll : List String) :
    ∀ (suffix : List String) (k : Nat) (acc : List (Nat × Nat)),
      (∀ p : Nat, suffix[p]? = addrsAll[k + p]?) →
      (∀ e ∈ acc, e.1 < k) →
      collectPartialSigsGo (hubCtx secretOf addrsAll) secretOf seedOf msg
        (idxListFrom (fun _ x => nonceOf (seedOf x)) 0 addrsAll)
        (regListFrom secretOf k suffix) acc
        = .ok (acc ++ idxListFrom (fun j _ =>
            partialShare (hubCtx secretOf addrsAll) j msg
              (totalNonce seedOf addrsAll)) k suffix) := by
  intro suffix
  induction suffix with
  | nil =>
    intro k acc _ _
    simp [regListFrom, collectPartialSigsGo, idxListFrom]
  | cons a rest ih =>
    intro k acc hs hacc
    have ha : addrsAll[k]? = some a := by
      have h0 := (hs 0).symm
      simpa using h0
    have hfresh : hmLookup k acc = none := by
      apply hmLookup_none_of_keys
      intro e he heq
      exact absurd (hacc e he) (by rw [heq]; simp)
    simp only [regListFrom, collectPartialSigsGo,
      signerPartialSig_at secretOf seedOf msg addrsAll k a ha]
    rw [hmInsert_of_lookup_none _ hfresh]
    rw [ih (k + 1) _ ?hs2 ?hacc2]
    case hs2 =>
      intro p
      have h1 := hs (p + 1)
      rw [List.getElem?_cons_succ] at h1
      rw [show (k + 1) + p = k + (p + 1) from by omega]
      exact h1
    case hacc2 =>
      intro e he
      rcases List.mem_append.mp he with h1 | h1
      · have := hacc e h1
        omega
      · simp only [List.mem_singleton] at h1
        subst h1
        simp
    simp [idxListFrom, List.append_assoc]

theorem collectFinalSigs_reg (secretOf seedOf : String → Nat) (msg : Nat)
    (addrsAll : List String) (hne : addrsAll ≠ []) :
    ∀ (suffix : List String) (k : Nat) (acc : List (Nat × Nat)),
      (∀ p : Nat, suffix[p]? = addrsAll[k + p]?) →
      collectFinalSigsGo (hubCtx secretOf addrsAll) secretOf seedOf msg
        (idxListFrom (fun _ x => nonceOf (seedOf x)) 0 addrsAll)
        (idxListFrom (fun j _ => partialShare (hubCtx secretOf addrsAll) j msg
          (totalNonce seedOf addrsAll)) 0 addrsAll)
        (regListFrom secretOf k suffix) acc
        = .ok (acc ++ List.replicate suffix.length
            (hubSig secretOf seedOf msg addrsAll)) := by
  intro suffix
  induction suffix with
  | nil =>
    intro k acc _
    simp [regListFrom, collectFinalSigsGo]
  | cons a rest ih =>
    intro k acc hs
    have ha : addrsAll[k]? = some a := by
      have h0 := (hs 0).symm
      simpa using h0
    simp only [regListFrom, collectFinalSigsGo,
      signerFinalSig_at secretOf seedOf msg addrsAll hne k a ha]
    rw [ih (k + 1) _ ?hs2]
    case hs2 =>
      intro p
      have h1 := hs (p + 1)
      rw [List.getElem?_cons_succ] at h1
      rw [show (k + 1) + p = k + (p + 1) from by omega]
      exact h1
    simp [List.replicate_succ, List.append_assoc]

theorem windowsAllEq_replicate (n : Nat) (s : Nat × Nat) :
    windowsAllEq (List.replicate n s) = true := by
  induction n with
  | zero => rfl
  | succ m ih =>
    cases m with
    | zero => rfl
    | succ m2 =>
      rw [List.replicate_succ, List.replicate_succ]
      show ((s == s) && windowsAllEq (s :: List.replicate m2 s)) = true
      rw [← List.replicate_succ, ih]
      simp

theorem consistencyCheck_replicate (sid : String) (n : Nat) (hn : 1 ≤ n)
    (s : Nat × Nat) (aggpk msg : Nat) :
    consistencyCheck sid (List.replicate n s) aggpk msg
      = .ok ⟨sid, aggpk, s, verifySingle aggpk s msg⟩ := by
  obtain ⟨m, rfl⟩ : ∃ m, n = m + 1 := ⟨n - 1, by omega⟩
  have hw := windowsAllEq_replicate (m + 1) s
  rw [List.replicate_succ] at hw
  simp only [consistencyCheck, List.replicate_succ, List.head?_cons, hw,
    if_true]

/-- Claim C1 (amended): for every N ≥ 2 and every message, provided the
hub's signer-map iteration enumerates the registered signers in
registration order — the identity registered with index i at position
i — the protocol yields at every one of the N participants one and the
same final signature, and the operator's reply carries that signature
with a successful verification against the aggregated identity and the
message. -/
theorem hub_protocol_completeness (secretOf seedOf : String → Nat)
    (msg : Nat) (sid : String) (addrs : List String)
    (h2 : 2 ≤ addrs.length) :
    hubFinals sid (regFold secretOf addrs) secretOf seedOf msg
      = .ok (List.replicate addrs.length
          (hubSig secretOf seedOf msg addrs)) ∧
    verifySingle (aggregatedPubkey (hubCtx secretOf addrs))
      (hubSig secretOf seedOf msg addrs) msg = true ∧
    signMessage sid (regFold secretOf addrs) secretOf seedOf msg
      = .ok ⟨sid, aggregatedPubkey (hubCtx secretOf addrs),
             hubSig secretOf seedOf msg addrs, true⟩ := by
  have hne : addrs ≠ [] := by
    intro h
    rw [h] at h2
    simp at h2
  have hreg := regFold_eq secretOf addrs
  have hpub := regListFrom_pubkeys secretOf addrs 0
  have hctxnew : keyAggCtxNew (hubCtx secretOf addrs)
      = some (hubCtx secretOf addrs) := by
    have hctxne : (hubCtx secretOf addrs).isEmpty = false := by
      cases addrs with
      | nil => exact absurd rfl hne
      | cons a rest => simp [hubCtx]
    simp [keyAggCtxNew, hctxne]
  have hp1 := requestNonces_reg sid msg secretOf seedOf addrs addrs 0 []
    (by omega) (by intro e he; cases he)
  have hp2 := collectPartialSigs_reg secretOf seedOf msg addrs addrs 0 []
    (fun p => by simp) (by intro e he; cases he)
  have hp3 := collectFinalSigs_reg secretOf seedOf msg addrs hne addrs 0 []
    (fun p => by simp)
  have hfinals : hubFinals sid (regListFrom secretOf 0 addrs)
      secretOf seedOf msg
      = .ok (List.replicate addrs.length
          (hubSig secretOf seedOf msg addrs)) := by
    simp only [hubFinals, hpub, hctxnew, requestNonces, hp1,
      List.nil_append, collectPartialSigs, hp2, collectFinalSigs, hp3]
  have hver : verifySingle (aggregatedPubkey (hubCtx secretOf addrs))
      (hubSig secretOf seedOf msg addrs) msg = true := by
    simp [verifySingle, hubSig, sigTarget]
  have hsig : signMessage sid (regListFrom secretOf 0 addrs)
      secretOf seedOf msg
      = .ok ⟨sid, aggregatedPubkey (hubCtx secretOf addrs),
             hubSig secretOf seedOf msg addrs, true⟩ := by
    have hcons := consistencyCheck_replicate sid addrs.length (by omega)
      (hubSig secretOf seedOf msg addrs)
      (aggregatedPubkey (hubCtx secretOf addrs)) msg
    rw [hver] at hcons
    simp only [signMessage, hpub, hctxnew, hfinals, hcons]
  exact ⟨by rw [hreg]; exact hfinals, hver, by rw [hreg]; exact hsig⟩

/-- Witness for C1's amended statement: two signers, addresses "a" and
"b", secrets 1 and 2, iterated in registration order. -/
theorem hub_protocol_completeness_witness :
    (2 ≤ (["a", "b"] : List String).length) ∧
    (hubFinals "s" (regFold (fun a => if a = "a" then 1 else 2) ["a", "b"])
        (fun a => if a = "a" then 1 else 2) (fun _ => 0) 0
      = .ok (List.replicate 2
          (hubSig (fun a => if a = "a" then 1 else 2) (fun _ => 0) 0
            ["a", "b"])) ∧
     verifySingle
        (aggregatedPubkey
          (hubCtx (fun a => if a = "a" then 1 else 2) ["a", "b"]))
        (hubSig (fun a => if a = "a" then 1 else 2) (fun _ => 0) 0
          ["a", "b"]) 0 = true ∧
     signMessage "s" (regFold (fun a => if a = "a" then 1 else 2) ["a", "b"])
        (fun a => if a = "a" then 1 else 2) (fun _ => 0) 0
      = .ok ⟨"s",
          aggregatedPubkey
            (hubCtx (fun a => if a = "a" then 1 else 2) ["a", "b"]),
          hubSig (fun a => if a = "a" then 1 else 2) (fun _ => 0) 0
            ["a", "b"],
          true⟩) :=
  ⟨by decide,
   hub_protocol_completeness (fun a => if a = "a" then 1 else 2)
     (fun _ => 0) 0 "s" ["a", "b"] (by decide)⟩

end Musig2Spec
